import Mathlib

/-!
Shallow embedding of the covalent dispatcher core — the files
`covalent_dispatcher/_core/execution.py` and
`covalent_dispatcher/_core/data_manager.py` — together with theorems that
settle the specification's claims about them.  Each definition carries a doc
comment pointing at the source function it embeds.
-/

namespace Covalent

/-- Workflow and node statuses (the `Result.*` status constants of
`covalent._results_manager.result.Result` that the dispatcher core reads and
writes). -/
inductive Status where
  | NEW_OBJECT
  | RUNNING
  | COMPLETED
  | FAILED
  | CANCELLED
  | POSTPROCESSING
  | PENDING_POSTPROCESSING
  | POSTPROCESSING_FAILED
  deriving DecidableEq, Repr

/-! ## Result service: `update_node_result` (`data_manager.py`) -/

/-- The slice of a node-result record (built by `generate_node_result` in
`data_manager.py`) that `update_node_result` reads: the node id and the
status field, which may be absent (`None`). -/
structure NodeUpdate where
  node_id : Int
  status : Option Status
  deriving DecidableEq, Repr

/-- Shallow embedding of `update_node_result` (`data_manager.py` lines
87-105).  The persistence attempt (`result_object._update_node` on the thread
pool) is modelled by the flag `persistOk`: when it is false the `except`
branch forces the record's status to FAILED.  The `finally` block then
publishes the event `(node_id, status)` to the workflow's status queue, but
only when the status is truthy, i.e. set.  The function returns the final
record together with the list of published events. -/
def update_node_result (persistOk : Bool) (nr : NodeUpdate) :
    NodeUpdate × List (Int × Status) :=
  let nr' := if persistOk then nr else { nr with status := some Status.FAILED }
  let events := match nr'.status with
    | some s => [(nr'.node_id, s)]
    | none => []
  (nr', events)

/-! ## Task runner: the sublattice branch of `_run_task` (`execution.py`) -/

/-- The slice of a sub-workflow Result object that the sublattice branch of
`_run_task` reads: its terminal status and its encoded result value. -/
structure SublatticeResult (α : Type) where
  status : Status
  encoded_result : α

/-- A node-result record as assembled by `generate_node_result` in
`execution.py`; only the fields the sublattice claims speak about are kept
(node id, status, output, error). -/
structure NodeResult (α : Type) where
  node_id : Int
  status : Option Status
  output : Option α
  error : Option String

/-- Shallow embedding of the sublattice branch of `_run_task` (`execution.py`
lines 396-431).  `sub` is the value returned by `_dispatch_sync_sublattice`;
`none` models a falsy result, for which the code raises
`RuntimeError("Sublattice execution failed")`, caught by the surrounding
`except` which produces a FAILED record whose error is the formatted
traceback `tb`.  Otherwise a COMPLETED record holding the sub-workflow's
encoded result is built and, if the sub-workflow's status is not COMPLETED,
its status is overwritten with FAILED and the fixed error message. -/
def run_task_sublattice {α : Type} (node_id : Int) (tb : String)
    (sub : Option (SublatticeResult α)) : NodeResult α :=
  match sub with
  | none =>
      { node_id := node_id, status := some Status.FAILED, output := none,
        error := some tb }
  | some r =>
      let nr : NodeResult α :=
        { node_id := node_id, status := some Status.COMPLETED,
          output := some r.encoded_result, error := none }
      if r.status ≠ Status.COMPLETED then
        { nr with status := some Status.FAILED,
                  error := some "Sublattice workflow failed to complete" }
      else nr

/-! ## Scheduler epilogue of `_run_planned_workflow` (`execution.py`) -/

/-- Invocation counts observed after the scheduling loop of
`_run_planned_workflow` ends (`execution.py` lines 823-840): how many times
`finalize_executors` and `_postprocess_workflow` are called. -/
structure EpilogueCalls where
  finalizeCalls : Nat
  postprocessCalls : Nat
  deriving DecidableEq, Repr

/-- Shallow embedding of the epilogue of `_run_planned_workflow`
(`execution.py` lines 825-840): if the workflow status is FAILED or
CANCELLED, `finalize_executors` is awaited on the executor cache and the
function returns; otherwise `_postprocess_workflow` is awaited (followed by
persist and webhook notification). -/
def run_planned_workflow_epilogue (status : Status) : EpilogueCalls :=
  if status = Status.FAILED ∨ status = Status.CANCELLED then
    { finalizeCalls := 1, postprocessCalls := 0 }
  else
    { finalizeCalls := 0, postprocessCalls := 1 }

/-! ## Entry point `run_workflow` (`execution.py`) -/

/-- A workflow result object as read by `run_workflow`: its status together
with an abstract payload standing for every other piece of state. -/
structure WorkflowResult (α : Type) where
  status : Status
  payload : α

/-- Shallow embedding of `run_workflow` (`execution.py` lines 880-904).
`_plan_workflow` mutates nothing (its body is a pass on unscheduled
lattices), and `_run_planned_workflow` is abstracted by the oracle
`runPlanned` whose second component counts the effects (node execution,
post-processing, state mutations) it performs.  The returned boolean records
whether the planned-workflow path ran at all, and the final `Nat` the number
of effects performed. -/
def run_workflow {α : Type}
    (runPlanned : WorkflowResult α → WorkflowResult α × Nat)
    (r : WorkflowResult α) : WorkflowResult α × Bool × Nat :=
  if r.status = Status.COMPLETED then (r, false, 0)
  else
    let p := runPlanned r
    (p.1, true, p.2)

/-! ## Claim C4 -/

/-- C4: counterexample.  A call whose node result carries no status and whose
persistence succeeds publishes no event at all, refuting the claim that
exactly one `(node_id, status)` event is published per call. -/
theorem C4_counterexample :
    (update_node_result true { node_id := 0, status := none }).2 = [] ∧
    ¬ (update_node_result true { node_id := 0, status := none }).2.length = 1 := by
  decide

/-- C4 (amended): if persistence fails, the status is forced to FAILED before
publication and exactly one event, carrying FAILED, is published; in general
exactly one event is published per call unless persistence succeeded and the
record carries no status, in which case none is published. -/
theorem C4_update_node_result_publishes (persistOk : Bool) (nr : NodeUpdate) :
    (persistOk = false →
      (update_node_result persistOk nr).1.status = some Status.FAILED ∧
      (update_node_result persistOk nr).2 = [(nr.node_id, Status.FAILED)]) ∧
    (update_node_result persistOk nr).2.length =
      (if persistOk = true ∧ nr.status = none then 0 else 1) := by
  cases persistOk <;> cases h : nr.status <;>
    simp [update_node_result, h]

/-- C4 witness: the amended theorem applied to a failing persistence on a
concrete record. -/
theorem C4_witness :
    (update_node_result false { node_id := 3, status := some Status.RUNNING }).1.status
        = some Status.FAILED ∧
    (update_node_result false { node_id := 3, status := some Status.RUNNING }).2
        = [(3, Status.FAILED)] :=
  (C4_update_node_result_publishes false
    { node_id := 3, status := some Status.RUNNING }).1 rfl

/-! ## Claim C5 -/

/-- C5: when the sub-workflow terminates COMPLETED, the parent node's result
is COMPLETED with the child's encoded result as output; when its terminal
status is anything else, the parent node's result is FAILED with the error
message "Sublattice workflow failed to complete". -/
theorem C5_sublattice_outcome {α : Type} (node_id : Int) (tb : String)
    (r : SublatticeResult α) :
    (r.status = Status.COMPLETED →
      run_task_sublattice node_id tb (some r) =
        { node_id := node_id, status := some Status.COMPLETED,
          output := some r.encoded_result, error := none }) ∧
    (r.status ≠ Status.COMPLETED →
      (run_task_sublattice node_id tb (some r)).status = some Status.FAILED ∧
      (run_task_sublattice node_id tb (some r)).output = some r.encoded_result ∧
      (run_task_sublattice node_id tb (some r)).error =
        some "Sublattice workflow failed to complete") := by
  constructor
  · intro h
    simp [run_task_sublattice, h]
  · intro h
    simp [run_task_sublattice, h]

/-- C5 witness: the theorem applied to a concrete completed sub-workflow and
a concrete failed one. -/
theorem C5_witness :
    run_task_sublattice (α := Nat) 7 "tb" (some ⟨Status.COMPLETED, 42⟩) =
      { node_id := 7, status := some Status.COMPLETED, output := some 42,
        error := none } ∧
    (run_task_sublattice (α := Nat) 7 "tb" (some ⟨Status.CANCELLED, 41⟩)).status
        = some Status.FAILED ∧
    (run_task_sublattice (α := Nat) 7 "tb" (some ⟨Status.CANCELLED, 41⟩)).error
        = some "Sublattice workflow failed to complete" :=
  ⟨(C5_sublattice_outcome 7 "tb" ⟨Status.COMPLETED, 42⟩).1 rfl,
   ((C5_sublattice_outcome 7 "tb" ⟨Status.CANCELLED, 41⟩).2 (by decide)).1,
   ((C5_sublattice_outcome 7 "tb" ⟨Status.CANCELLED, 41⟩).2 (by decide)).2.2⟩

/-! ## Claim C2 -/

/-- C2: after the scheduling loop, a workflow still RUNNING (all nodes
succeeded) invokes the post-processor exactly once and does not finalize the
executor cache; a FAILED or CANCELLED workflow finalizes the executor cache
exactly once and returns without invoking the post-processor. -/
theorem C2_epilogue (s : Status) :
    (s = Status.RUNNING →
      run_planned_workflow_epilogue s =
        { finalizeCalls := 0, postprocessCalls := 1 }) ∧
    ((s = Status.FAILED ∨ s = Status.CANCELLED) →
      run_planned_workflow_epilogue s =
        { finalizeCalls := 1, postprocessCalls := 0 }) := by
  cases s <;> simp [run_planned_workflow_epilogue]

/-- C2 witness: the theorem applied to a RUNNING and to a FAILED workflow. -/
theorem C2_witness :
    run_planned_workflow_epilogue Status.RUNNING =
      { finalizeCalls := 0, postprocessCalls := 1 } ∧
    run_planned_workflow_epilogue Status.FAILED =
      { finalizeCalls := 1, postprocessCalls := 0 } :=
  ⟨(C2_epilogue Status.RUNNING).1 rfl, (C2_epilogue Status.FAILED).2 (Or.inl rfl)⟩

/-! ## Claim C10 -/

/-- C10: a result object whose status is already COMPLETED is returned
unchanged by `run_workflow`: the planned-workflow path is not taken and zero
effects are performed, whatever `_run_planned_workflow` would have done. -/
theorem C10_run_workflow_completed {α : Type}
    (runPlanned : WorkflowResult α → WorkflowResult α × Nat)
    (r : WorkflowResult α) (h : r.status = Status.COMPLETED) :
    run_workflow runPlanned r = (r, false, 0) := by
  simp [run_workflow, h]

/-- C10 witness: the theorem applied to a concrete completed result object
and an oracle that would mutate it. -/
theorem C10_witness :
    run_workflow
      (fun r => ({ status := Status.FAILED, payload := r.payload + 1 }, 5))
      { status := Status.COMPLETED, payload := (0 : Nat) } =
      ({ status := Status.COMPLETED, payload := 0 }, false, 0) :=
  C10_run_workflow_completed _ _ rfl

/-! ## Post-processor `_postprocess_workflow` (`execution.py`) and parent
propagation `_update_parent_electron` (`data_manager.py`) -/

/-- Outcome of awaiting the post-process `_run_task` call inside
`_postprocess_workflow`: either the awaited task raised (caught by the
`except` branch) or it returned a node result carrying the given status,
output and stderr. -/
inductive PPOutcome (α : Type) where
  | raised
  | finished (status : Status) (output : α) (stderr : String)

/-- Observable record of one `_postprocess_workflow` run: every status
assigned to the result object, in assignment order; the status it holds on
return; whether `_end_time` was set; whether the post-process `_run_task`
call was made and, if so, with which `unplanned_task` flag; the recorded
error and the final result value. -/
structure PPRecord (α : Type) where
  statusTrace : List Status
  finalStatus : Status
  endTimeSet : Bool
  taskRan : Bool
  unplannedFlag : Option Bool
  error : Option String
  result : Option α

/-- Shallow embedding of `_postprocess_workflow` (`execution.py` lines
595-683).  The function first sets the status to POSTPROCESSING and persists;
if the workflow executor's short name is "client" it then sets
PENDING_POSTPROCESSING with an end time and returns without running the
post-process task; otherwise it runs the post-process task through
`_run_task` with `unplanned_task=False` and maps the outcome: an exception or
a non-COMPLETED result gives POSTPROCESSING_FAILED with an error, a COMPLETED
result gives COMPLETED with the task output as the workflow result. -/
def postprocess_workflow {α : Type} (pp_executor : String)
    (outcome : PPOutcome α) : PPRecord α :=
  if pp_executor = "client" then
    { statusTrace := [Status.POSTPROCESSING, Status.PENDING_POSTPROCESSING],
      finalStatus := Status.PENDING_POSTPROCESSING,
      endTimeSet := true, taskRan := false, unplannedFlag := none,
      error := none, result := none }
  else
    match outcome with
    | PPOutcome.raised =>
        { statusTrace := [Status.POSTPROCESSING, Status.POSTPROCESSING_FAILED],
          finalStatus := Status.POSTPROCESSING_FAILED,
          endTimeSet := true, taskRan := true, unplannedFlag := some false,
          error := some "Post-processing failed", result := none }
    | PPOutcome.finished s out stderr =>
        if s ≠ Status.COMPLETED then
          { statusTrace := [Status.POSTPROCESSING, Status.POSTPROCESSING_FAILED],
            finalStatus := Status.POSTPROCESSING_FAILED,
            endTimeSet := true, taskRan := true, unplannedFlag := some false,
            error := some ("Post-processing failed: " ++ stderr), result := none }
        else
          { statusTrace := [Status.POSTPROCESSING, Status.COMPLETED],
            finalStatus := Status.COMPLETED,
            endTimeSet := true, taskRan := true, unplannedFlag := some false,
            error := none, result := some out }

/-- Shallow embedding of `_update_parent_electron` (`data_manager.py` lines
194-211): given the parent electron id of a finished sub-workflow (falsy
models the absence of a parent) and the sub-workflow's terminal status, it
returns the status written into the parent electron's node-result record,
normalising POSTPROCESSING_FAILED to FAILED; with no parent electron nothing
is written. -/
def update_parent_electron (parent_eid : Option Nat) (childStatus : Status) :
    Option Status :=
  match parent_eid with
  | none => none
  | some _ =>
      some (if childStatus = Status.POSTPROCESSING_FAILED then Status.FAILED
            else childStatus)

/-! ## Claim C8 -/

/-- C8: counterexample.  In the client case the workflow is transitioned to
POSTPROCESSING (and persisted) before being set to PENDING_POSTPROCESSING,
refuting "the transition to POSTPROCESSING status happens only in the
non-client case"; moreover in the non-client case the post-process task is
run with `unplanned_task = False`, not as an unplanned task. -/
theorem C8_counterexample :
    Status.POSTPROCESSING ∈
      (postprocess_workflow (α := Nat) "client" PPOutcome.raised).statusTrace ∧
    (postprocess_workflow (α := Nat) "dask"
        (PPOutcome.finished Status.COMPLETED 0 "")).unplannedFlag = some false := by
  constructor
  · simp [postprocess_workflow]
  · simp [postprocess_workflow]

/-- C8 (amended): when the workflow executor's short name is "client" the
workflow is first set to POSTPROCESSING and persisted, then ends in
PENDING_POSTPROCESSING with end_time set and the post-process task is never
run; in the non-client case the workflow is likewise first set to
POSTPROCESSING and the post-process task is run, with `unplanned_task` set to
False. -/
theorem C8_postprocess_client {α : Type} (outcome : PPOutcome α) (pp : String) :
    (pp = "client" →
      postprocess_workflow pp outcome =
        { statusTrace := [Status.POSTPROCESSING, Status.PENDING_POSTPROCESSING],
          finalStatus := Status.PENDING_POSTPROCESSING, endTimeSet := true,
          taskRan := false, unplannedFlag := none, error := none,
          result := none }) ∧
    (pp ≠ "client" →
      (postprocess_workflow pp outcome).taskRan = true ∧
      (postprocess_workflow pp outcome).unplannedFlag = some false ∧
      (postprocess_workflow pp outcome).statusTrace.head? =
        some Status.POSTPROCESSING) := by
  constructor
  · intro h
    simp [postprocess_workflow, h]
  · intro h
    cases outcome with
    | raised => simp [postprocess_workflow, h]
    | finished s out stderr =>
        by_cases hs : s = Status.COMPLETED <;>
          simp [postprocess_workflow, h, hs]

/-- C8 witness: the amended theorem applied to the client executor and to a
concrete non-client executor. -/
theorem C8_witness :
    postprocess_workflow (α := Nat) "client" PPOutcome.raised =
      { statusTrace := [Status.POSTPROCESSING, Status.PENDING_POSTPROCESSING],
        finalStatus := Status.PENDING_POSTPROCESSING, endTimeSet := true,
        taskRan := false, unplannedFlag := none, error := none,
        result := none } ∧
    (postprocess_workflow (α := Nat) "dask" PPOutcome.raised).taskRan = true :=
  ⟨(C8_postprocess_client PPOutcome.raised "client").1 rfl,
   ((C8_postprocess_client PPOutcome.raised "dask").2 (by decide)).1⟩

/-! ## Claim C9 -/

/-- C9: a post-processing failure (a raised post-process task or a
non-COMPLETED post-process result, on a non-client executor) leaves the
workflow in POSTPROCESSING_FAILED, a status distinct from FAILED; yet when a
sub-workflow with a parent electron ends in POSTPROCESSING_FAILED, the status
propagated to the parent electron node is FAILED. -/
theorem C9_postprocessing_failed_propagation {α : Type} (pp : String)
    (hpp : pp ≠ "client") (outcome : PPOutcome α)
    (hfail : outcome = PPOutcome.raised ∨
      ∃ s out stderr, outcome = PPOutcome.finished s out stderr ∧
        s ≠ Status.COMPLETED)
    (eid : Nat) :
    (postprocess_workflow pp outcome).finalStatus =
        Status.POSTPROCESSING_FAILED ∧
    Status.POSTPROCESSING_FAILED ≠ Status.FAILED ∧
    update_parent_electron (some eid) Status.POSTPROCESSING_FAILED =
      some Status.FAILED := by
  refine ⟨?_, by decide, by simp [update_parent_electron]⟩
  rcases hfail with h | ⟨s, out, stderr, h, hs⟩ <;> subst h
  · simp [postprocess_workflow, hpp]
  · simp [postprocess_workflow, hpp, hs]

/-- C9 witness: the theorem applied to a concrete failing post-process run on
a non-client executor. -/
theorem C9_witness :
    (postprocess_workflow (α := Nat) "dask"
        (PPOutcome.finished Status.FAILED 0 "boom")).finalStatus =
      Status.POSTPROCESSING_FAILED ∧
    update_parent_electron (some 5) Status.POSTPROCESSING_FAILED =
      some Status.FAILED := by
  have h := C9_postprocessing_failed_propagation (α := Nat) "dask" (by decide)
    (PPOutcome.finished Status.FAILED 0 "boom")
    (Or.inr ⟨Status.FAILED, 0, "boom", rfl, by decide⟩) 5
  exact ⟨h.1, h.2.2⟩

/-! ## Transport graph model (the slice of
`covalent._workflow.transport.TransportGraph` that `execution.py` reads) -/

/-- Python `str.startswith` on the character-list view of strings. -/
def pyStartsWith (s p : String) : Bool := p.data.isPrefixOf s.data

/-- Name marker for list-collector nodes (`electron_list_prefix` in
`covalent._shared_files.defaults`). -/
def electronListMarker : String := ":electron_list:"

/-- Name marker for dict-collector nodes (`electron_dict_prefix`). -/
def electronDictMarker : String := ":electron_dict:"

/-- Name marker for parameter nodes (`parameter_prefix`). -/
def parameterMarker : String := ":parameter:"

/-- Edge attributes of the transport multigraph as read by
`_get_task_inputs` and `_handle_completed_node`: the edge name, the parameter
kind ("arg", "kwarg", or neither for pure ordering edges), the positional
index, and the wait_for flag (an absent key in the source dict models as
false). -/
structure EdgeData where
  edge_name : String
  param_type : String
  arg_index : Nat
  wait_for : Bool
  deriving DecidableEq, Repr

/-- Opaque node-output values: a transportable object is an opaque value, a
transportable list (`TransportableObject.make_transportable` applied to a
list of parent outputs) or a transportable dict. -/
inductive TValue (α : Type) where
  | obj (a : α)
  | collection (xs : List (TValue α))
  | dictCollection (xs : List (String × TValue α))

/-- The transport multigraph: the node-id list in insertion order, the
multi-edge list in insertion order (each entry `(parent, child, attributes)`),
and the per-node "output" value slot. -/
structure TGraph (α : Type) where
  nodes : List Nat
  edges : List (Nat × Nat × EdgeData)
  output : Nat → TValue α

/-- First-occurrence deduplication, modelling the key order of the adjacency
dicts of a networkx multigraph (a key keeps its first insertion position). -/
def firstDedup (l : List Nat) : List Nat :=
  l.foldl (fun acc x => if x ∈ acc then acc else acc ++ [x]) []

/-- Edges of the multigraph whose target is `c`. -/
def TGraph.edgesInto {α : Type} (g : TGraph α) (c : Nat) :
    List (Nat × Nat × EdgeData) :=
  g.edges.filter (fun e => e.2.1 = c)

/-- The predecessors of node `c` in first-insertion order
(`transport_graph.get_dependencies`). -/
def TGraph.parents {α : Type} (g : TGraph α) (c : Nat) : List Nat :=
  firstDedup ((g.edgesInto c).map (fun e => e.1))

/-- The attribute dicts of the parallel edges from `p` to `c` in insertion
order (`transport_graph.get_edge_data(p, c).items()`). -/
def TGraph.edgeData {α : Type} (g : TGraph α) (p c : Nat) : List EdgeData :=
  (g.edges.filter (fun e => e.1 = p ∧ e.2.1 = c)).map (fun e => e.2.2)

/-- Multigraph in-degree of `c`, counting parallel edges (`g.in_degree()`). -/
def TGraph.inDegree {α : Type} (g : TGraph α) (c : Nat) : Nat :=
  (g.edgesInto c).length

/-- Number of parallel edges from `p` to `c`. -/
def TGraph.multiplicity {α : Type} (g : TGraph α) (p c : Nat) : Nat :=
  (g.edgeData p c).length

/-- The successors of node `p` in first-insertion order (the keys of
`g.adj[p]`). -/
def TGraph.childrenOf {α : Type} (g : TGraph α) (p : Nat) : List Nat :=
  firstDedup ((g.edges.filter (fun e => e.1 = p)).map (fun e => e.2.1))

/-- Python dict assignment `m[k] = v`: replace in place when the key exists
(keeping its position), append otherwise. -/
def dictInsert {β : Type} (m : List (String × β)) (k : String) (v : β) :
    List (String × β) :=
  if m.any (fun q => q.1 = k) then
    m.map (fun q => if q.1 = k then (k, v) else q)
  else m ++ [(k, v)]

/-- Python dict lookup on the association-list model. -/
def slookup {β : Type} (k : String) : List (String × β) → Option β
  | [] => none
  | q :: qs => if q.1 = k then some q.2 else slookup k qs

/-- The task-input dictionary built by `_get_task_inputs`: the positional
argument list and the keyword-argument dict. -/
structure TaskInput (α : Type) where
  args : List (TValue α)
  kwargs : List (String × TValue α)

/-- Body of the regular-node edge loop of `_get_task_inputs` (`execution.py`
lines 190-196): skip wait-for edges; an "arg" edge appends
`(value, arg_index)` to the positional accumulator; a "kwarg" edge writes
`edge_name -> value` into the keyword dict. -/
def regularStep {α : Type} (g : TGraph α) (parent : Nat)
    (st : List (TValue α × Nat) × List (String × TValue α)) (d : EdgeData) :
    List (TValue α × Nat) × List (String × TValue α) :=
  if d.wait_for = false then
    if d.param_type = "arg" then
      (st.1 ++ [(g.output parent, d.arg_index)], st.2)
    else if d.param_type = "kwarg" then
      (st.1, dictInsert st.2 d.edge_name (g.output parent))
    else st
  else st

/-- Shallow embedding of `_get_task_inputs` (`execution.py` lines 147-201).
A node whose name starts with the electron-list marker receives the outputs
of all its parents, in parent order, wrapped as a transportable list under
the single keyword argument "x"; a dict-collector node receives the dict
`edge_name -> parent output` under "x"; a regular node receives positional
arguments from its non-wait "arg" edges sorted by `arg_index` (Python's
stable `sorted`) and keyword arguments from its non-wait "kwarg" edges. -/
def get_task_inputs {α : Type} (g : TGraph α) (node_id : Nat)
    (node_name : String) : TaskInput α :=
  if pyStartsWith node_name electronListMarker then
    { args := [],
      kwargs := [("x", TValue.collection ((g.parents node_id).map g.output))] }
  else if pyStartsWith node_name electronDictMarker then
    let values := (g.parents node_id).foldl
      (fun values parent =>
        (g.edgeData parent node_id).foldl
          (fun values d => dictInsert values d.edge_name (g.output parent))
          values)
      []
    { args := [], kwargs := [("x", TValue.dictCollection values)] }
  else
    let st := (g.parents node_id).foldl
      (fun st parent =>
        (g.edgeData parent node_id).foldl (regularStep g parent) st)
      (([], []) : List (TValue α × Nat) × List (String × TValue α))
    let sorted_args := st.1.mergeSort (fun a b => a.2 ≤ b.2)
    { args := sorted_args.map (fun x => x.1), kwargs := st.2 }

/-- The `(value, arg_index)` pair recorded for one edge of a regular node,
when the edge is a non-wait "arg" edge. -/
def argPick {α : Type} (g : TGraph α) (p : Nat) (d : EdgeData) :
    Option (TValue α × Nat) :=
  if d.wait_for = false ∧ d.param_type = "arg" then
    some (g.output p, d.arg_index)
  else none

/-- The `(edge_name, value)` entry recorded for one edge of a regular node,
when the edge is a non-wait "kwarg" edge. -/
def kwargPick {α : Type} (g : TGraph α) (p : Nat) (d : EdgeData) :
    Option (String × TValue α) :=
  if d.wait_for = false ∧ d.param_type = "kwarg" then
    some (d.edge_name, g.output p)
  else none

/-- All `(value, arg_index)` pairs of the non-wait "arg" edges into `c`, in
traversal order. -/
def argPairs {α : Type} (g : TGraph α) (c : Nat) : List (TValue α × Nat) :=
  (g.parents c).flatMap (fun p => (g.edgeData p c).filterMap (argPick g p))

/-- All `(edge_name, value)` entries of the non-wait "kwarg" edges into `c`,
in traversal order. -/
def kwargEntries {α : Type} (g : TGraph α) (c : Nat) :
    List (String × TValue α) :=
  (g.parents c).flatMap (fun p => (g.edgeData p c).filterMap (kwargPick g p))

/-! ## Claim C6 -/

/-- A sample edge-attribute record used by concrete graphs in
counterexamples and witnesses. -/
def sampleEdge : EdgeData :=
  { edge_name := "x0", param_type := "arg", arg_index := 0, wait_for := false }

/-- A concrete three-node graph in which node 2 collects the outputs of its
two parents 0 and 1. -/
def listGraphEx : TGraph Nat :=
  { nodes := [0, 1, 2],
    edges := [(0, 2, sampleEdge), (1, 2, sampleEdge)],
    output := fun n => TValue.obj n }

/-- C6: counterexample.  For a list-collector node the gathered list of
parent outputs is passed as the single keyword argument "x" while the
positional argument list stays empty, refuting "passes the gathered list to
the task as a single positional argument". -/
theorem C6_counterexample :
    (get_task_inputs listGraphEx 2 ":electron_list:collect").args = [] ∧
    ¬ (get_task_inputs listGraphEx 2 ":electron_list:collect").args =
        [TValue.collection [TValue.obj 0, TValue.obj 1]] ∧
    (get_task_inputs listGraphEx 2 ":electron_list:collect").kwargs =
      [("x", TValue.collection [TValue.obj 0, TValue.obj 1])] := by
  refine ⟨rfl, ?_, rfl⟩
  intro h
  exact absurd (congrArg List.length h) (by decide)

/-- C6 (amended): for every list-collector node, input assembly gathers the
outputs of all its parent nodes preserving parent order and passes the
gathered list, wrapped as a transportable list, as the single keyword
argument "x", with no positional arguments. -/
theorem C6_list_collector_inputs {α : Type} (g : TGraph α) (c : Nat)
    (name : String) (h : pyStartsWith name electronListMarker = true) :
    get_task_inputs g c name =
      { args := [],
        kwargs := [("x", TValue.collection ((g.parents c).map g.output))] } := by
  simp [get_task_inputs, h]

/-- C6 witness: the amended theorem applied to the concrete collector
graph. -/
theorem C6_witness :
    get_task_inputs listGraphEx 2 ":electron_list:collect" =
      { args := [],
        kwargs := [("x", TValue.collection
          ((listGraphEx.parents 2).map listGraphEx.output))] } :=
  C6_list_collector_inputs listGraphEx 2 ":electron_list:collect" rfl

/-! ### Fold lemmas for the regular branch of `_get_task_inputs` -/

theorem regularStep_fold_fst {α : Type} (g : TGraph α) (p : Nat)
    (eds : List EdgeData) :
    ∀ st : List (TValue α × Nat) × List (String × TValue α),
      (eds.foldl (regularStep g p) st).1 =
        st.1 ++ eds.filterMap (argPick g p) := by
  induction eds with
  | nil => intro st; simp
  | cons d eds ih =>
      intro st
      simp only [List.foldl_cons, List.filterMap_cons]
      by_cases hw : d.wait_for = false
      · by_cases ha : d.param_type = "arg"
        · rw [ih]; simp [regularStep, argPick, hw, ha]
        · by_cases hk : d.param_type = "kwarg"
          · rw [ih]; simp [regularStep, argPick, hw, ha, hk]
          · rw [ih]; simp [regularStep, argPick, hw, ha, hk]
      · rw [ih]; simp [regularStep, argPick, hw]

theorem regularStep_fold_snd {α : Type} (g : TGraph α) (p : Nat)
    (eds : List EdgeData) :
    ∀ st : List (TValue α × Nat) × List (String × TValue α),
      (eds.foldl (regularStep g p) st).2 =
        (eds.filterMap (kwargPick g p)).foldl
          (fun m q => dictInsert m q.1 q.2) st.2 := by
  induction eds with
  | nil => intro st; simp
  | cons d eds ih =>
      intro st
      simp only [List.foldl_cons, List.filterMap_cons]
      by_cases hw : d.wait_for = false
      · by_cases ha : d.param_type = "arg"
        · rw [ih]; simp [regularStep, kwargPick, hw, ha]
        · by_cases hk : d.param_type = "kwarg"
          · rw [ih]; simp [regularStep, kwargPick, hw, ha, hk]
          · rw [ih]; simp [regularStep, kwargPick, hw, ha, hk]
      · rw [ih]; simp [regularStep, kwargPick, hw]

theorem regular_outer_fst {α : Type} (g : TGraph α) (c : Nat) (ps : List Nat) :
    ∀ st : List (TValue α × Nat) × List (String × TValue α),
      (ps.foldl (fun st p => (g.edgeData p c).foldl (regularStep g p) st) st).1 =
        st.1 ++ ps.flatMap (fun p => (g.edgeData p c).filterMap (argPick g p)) := by
  induction ps with
  | nil => intro st; simp
  | cons p ps ih =>
      intro st
      simp only [List.foldl_cons, List.flatMap_cons]
      rw [ih, regularStep_fold_fst]
      simp [List.append_assoc]

theorem regular_outer_snd {α : Type} (g : TGraph α) (c : Nat) (ps : List Nat) :
    ∀ st : List (TValue α × Nat) × List (String × TValue α),
      (ps.foldl (fun st p => (g.edgeData p c).foldl (regularStep g p) st) st).2 =
        (ps.flatMap (fun p => (g.edgeData p c).filterMap (kwargPick g p))).foldl
          (fun m q => dictInsert m q.1 q.2) st.2 := by
  induction ps with
  | nil => intro st; simp
  | cons p ps ih =>
      intro st
      simp only [List.foldl_cons, List.flatMap_cons]
      rw [ih, regularStep_fold_snd, List.foldl_append]

/-! ### Lookup lemmas for the Python-dict model -/

theorem slookup_map_update_eq {β : Type} (m : List (String × β)) (k : String)
    (v : β) (h : ∃ q ∈ m, q.1 = k) :
    slookup k (m.map (fun q => if q.1 = k then (k, v) else q)) = some v := by
  induction m with
  | nil => simp at h
  | cons q m ih =>
      by_cases hq : q.1 = k
      · simp [slookup, hq]
      · obtain ⟨r, hr, hrk⟩ := h
        rcases List.mem_cons.mp hr with h1 | h1
        · exact absurd (h1 ▸ hrk) hq
        · simp only [List.map_cons, if_neg hq, slookup, if_neg hq]
          exact ih ⟨r, h1, hrk⟩

theorem slookup_map_update_ne {β : Type} (m : List (String × β))
    (k k' : String) (v : β) (h : ¬ k' = k) :
    slookup k' (m.map (fun q => if q.1 = k then (k, v) else q)) =
      slookup k' m := by
  induction m with
  | nil => simp
  | cons q m ih =>
      by_cases hq : q.1 = k
      · simp only [List.map_cons, if_pos hq, slookup]
        rw [if_neg (fun hh => h hh.symm), if_neg (fun hh => h (hq ▸ hh).symm)]
        exact ih
      · simp only [List.map_cons, if_neg hq, slookup]
        by_cases hq' : q.1 = k'
        · rw [if_pos hq', if_pos hq']
        · rw [if_neg hq', if_neg hq']
          exact ih

theorem slookup_append_single_eq {β : Type} (m : List (String × β))
    (k : String) (v : β) (h : ∀ q ∈ m, ¬ q.1 = k) :
    slookup k (m ++ [(k, v)]) = some v := by
  induction m with
  | nil => simp [slookup]
  | cons q m ih =>
      have hq : ¬ q.1 = k := h q (by simp)
      simp only [List.cons_append, slookup, if_neg hq]
      exact ih (fun r hr => h r (List.mem_cons_of_mem q hr))

theorem slookup_append_single_ne {β : Type} (m : List (String × β))
    (k k' : String) (v : β) (h : ¬ k' = k) :
    slookup k' (m ++ [(k, v)]) = slookup k' m := by
  induction m with
  | nil =>
      simp only [List.nil_append, slookup]
      rw [if_neg (fun hh : k = k' => h hh.symm)]
  | cons q m ih =>
      simp only [List.cons_append, slookup]
      by_cases hq : q.1 = k'
      · rw [if_pos hq, if_pos hq]
      · rw [if_neg hq, if_neg hq]
        exact ih

theorem slookup_dictInsert {β : Type} (m : List (String × β)) (k k' : String)
    (v : β) :
    slookup k' (dictInsert m k v) = if k' = k then some v else slookup k' m := by
  unfold dictInsert
  by_cases hany : m.any (fun q => q.1 = k) = true
  · rw [if_pos hany]
    by_cases hk : k' = k
    · subst hk
      rw [if_pos rfl]
      obtain ⟨q, hq, hqk⟩ := List.any_eq_true.mp hany
      exact slookup_map_update_eq m k' v ⟨q, hq, by simpa using hqk⟩
    · rw [if_neg hk]
      exact slookup_map_update_ne m k k' v hk
  · rw [if_neg hany]
    have hno : ∀ q ∈ m, ¬ q.1 = k := by
      intro q hq hqk
      exact hany (List.any_eq_true.mpr ⟨q, hq, by simpa using hqk⟩)
    by_cases hk : k' = k
    · subst hk
      rw [if_pos rfl]
      exact slookup_append_single_eq m k' v hno
    · rw [if_neg hk]
      exact slookup_append_single_ne m k k' v hk

/-- The value of the last entry with key `k` in an entry list (the value a
Python dict holds after inserting all entries in order). -/
def lastVal {β : Type} (k : String) (l : List (String × β)) : Option β :=
  (l.reverse.find? (fun q => q.1 = k)).map (fun q => q.2)

theorem slookup_foldl_dictInsert {β : Type} (l : List (String × β)) :
    ∀ (m : List (String × β)) (k : String),
      slookup k (l.foldl (fun acc q => dictInsert acc q.1 q.2) m) =
        (lastVal k l).or (slookup k m) := by
  induction l with
  | nil => intro m k; simp [lastVal]
  | cons q l ih =>
      intro m k
      rw [List.foldl_cons, ih]
      unfold lastVal
      rw [List.reverse_cons, List.find?_append]
      cases hf : l.reverse.find? (fun r => r.1 = k) with
      | some r => simp
      | none =>
          simp only [Option.none_or, Option.or_none]
          rw [slookup_dictInsert]
          by_cases hk : k = q.1
          · simp [List.find?, hk]
          · have : ¬ q.1 = k := fun hh => hk hh.symm
            simp [List.find?, this, hk]

/-! ### Dict-key-order lemmas for `firstDedup` -/

theorem mem_firstDedup_foldl (l : List Nat) :
    ∀ (acc : List Nat) (x : Nat),
      x ∈ l.foldl (fun a y => if y ∈ a then a else a ++ [y]) acc ↔
        x ∈ acc ∨ x ∈ l := by
  induction l with
  | nil => simp
  | cons y l ih =>
      intro acc x
      rw [List.foldl_cons]
      by_cases hy : y ∈ acc
      · rw [if_pos hy, ih]
        simp only [List.mem_cons]
        constructor
        · rintro (h | h)
          · exact Or.inl h
          · exact Or.inr (Or.inr h)
        · rintro (h | h | h)
          · exact Or.inl h
          · exact Or.inl (h ▸ hy)
          · exact Or.inr h
      · rw [if_neg hy, ih]
        simp [List.mem_append, List.mem_cons, or_assoc]

theorem mem_firstDedup (l : List Nat) (x : Nat) :
    x ∈ firstDedup l ↔ x ∈ l := by
  unfold firstDedup
  rw [mem_firstDedup_foldl]
  simp

theorem firstDedup_append (l : List Nat) (x : Nat) :
    firstDedup (l ++ [x]) =
      if x ∈ l then firstDedup l else firstDedup l ++ [x] := by
  unfold firstDedup
  rw [List.foldl_append]
  simp only [List.foldl_cons, List.foldl_nil]
  have hmem : x ∈ l.foldl (fun a y => if y ∈ a then a else a ++ [y]) [] ↔ x ∈ l := by
    rw [mem_firstDedup_foldl]; simp
  by_cases hx : x ∈ l
  · rw [if_pos (hmem.mpr hx), if_pos hx]
  · rw [if_neg (fun h => hx (hmem.mp h)), if_neg hx]

theorem nodup_firstDedup_foldl (l : List Nat) :
    ∀ acc : List Nat, acc.Nodup →
      (l.foldl (fun a y => if y ∈ a then a else a ++ [y]) acc).Nodup := by
  induction l with
  | nil => intro acc h; simpa
  | cons y l ih =>
      intro acc h
      rw [List.foldl_cons]
      by_cases hy : y ∈ acc
      · rw [if_pos hy]; exact ih acc h
      · rw [if_neg hy]
        refine ih _ ?_
        simp [List.nodup_append, h, hy]

theorem nodup_firstDedup (l : List Nat) : (firstDedup l).Nodup :=
  nodup_firstDedup_foldl l [] List.nodup_nil

/-! ### Sortedness of the positional arguments -/

theorem pairwise_mergeSort_argIdx {α : Type} (l : List (TValue α × Nat)) :
    List.Pairwise (fun a b => a.2 ≤ b.2)
      (l.mergeSort (fun a b => a.2 ≤ b.2)) := by
  have h := @List.sorted_mergeSort (TValue α × Nat)
    (fun a b => decide (a.2 ≤ b.2))
    (fun a b c hab hbc => by
      simp only [decide_eq_true_eq] at hab hbc ⊢
      omega)
    (fun a b => by
      simp only [Bool.or_eq_true, decide_eq_true_eq]
      omega)
    l
  exact h.imp (fun hab => by simpa using hab)

/-! ### Wait-for edges contribute nothing to a regular node's inputs -/

theorem regular_inputs_append_wait_edge {α : Type} (g : TGraph α) (c : Nat)
    (name : String)
    (h1 : pyStartsWith name electronListMarker = false)
    (h2 : pyStartsWith name electronDictMarker = false)
    (e : Nat × Nat × EdgeData) (he : e.2.2.wait_for = true) :
    get_task_inputs
        { nodes := g.nodes, edges := g.edges ++ [e], output := g.output } c name
      = get_task_inputs g c name := by
  set g' : TGraph α :=
    { nodes := g.nodes, edges := g.edges ++ [e], output := g.output } with hg'
  have hstep : ∀ p : Nat, regularStep g' p = regularStep g p := fun p => rfl
  suffices hst :
      (g'.parents c).foldl
          (fun st p => (g'.edgeData p c).foldl (regularStep g' p) st)
          (([], []) : List (TValue α × Nat) × List (String × TValue α)) =
        (g.parents c).foldl
          (fun st p => (g.edgeData p c).foldl (regularStep g p) st)
          (([], []) : List (TValue α × Nat) × List (String × TValue α)) by
    simp only [get_task_inputs, h1, h2, Bool.false_eq_true, if_false]
    rw [hst]
  by_cases hc : e.2.1 = c
  · have hinto : g'.edgesInto c = g.edgesInto c ++ [e] := by
      simp [TGraph.edgesInto, hg', List.filter_append, hc]
    have hsrcs : (g'.edgesInto c).map (fun x => x.1) =
        (g.edgesInto c).map (fun x => x.1) ++ [e.1] := by
      rw [hinto]; simp
    by_cases hp : e.1 ∈ (g.edgesInto c).map (fun x => x.1)
    · have hparents : g'.parents c = g.parents c := by
        rw [TGraph.parents, hsrcs, firstDedup_append, if_pos hp]
        rfl
      have hed : ∀ p, g'.edgeData p c =
          g.edgeData p c ++ (if p = e.1 then [e.2.2] else []) := by
        intro p
        by_cases hpe : p = e.1
        · subst hpe
          simp [TGraph.edgeData, hg', List.filter_append, hc]
        · have hne : ¬ e.1 = p := fun hh => hpe hh.symm
          simp [TGraph.edgeData, hg', List.filter_append, hc, hne, hpe]
      rw [hparents]
      refine List.foldl_ext _ _ _ (fun st p hmem => ?_)
      rw [hstep p, hed p]
      by_cases hpe : p = e.1
      · rw [if_pos hpe, List.foldl_append]
        simp [regularStep, he]
      · rw [if_neg hpe]
        simp
    · have hparents : g'.parents c = g.parents c ++ [e.1] := by
        rw [TGraph.parents, hsrcs, firstDedup_append, if_neg hp]
        rfl
      have holdp : ∀ p ∈ g.parents c, ¬ p = e.1 := by
        intro p hmem heq
        exact hp (heq ▸ (mem_firstDedup _ _).mp hmem)
      have hed : ∀ p ∈ g.parents c, g'.edgeData p c = g.edgeData p c := by
        intro p hmem
        have hne : ¬ e.1 = p := fun hh => holdp p hmem hh.symm
        simp [TGraph.edgeData, hg', List.filter_append, hc, hne]
      have hednew : g'.edgeData e.1 c = [e.2.2] := by
        have hnone : g.edges.filter
            (fun x => decide (x.1 = e.1) && decide (x.2.1 = c)) = [] := by
          rw [List.filter_eq_nil_iff]
          rintro x hx hcontra
          simp only [Bool.and_eq_true, decide_eq_true_eq] at hcontra
          refine hp ?_
          rw [List.mem_map]
          exact ⟨x, by simp [TGraph.edgesInto, List.mem_filter, hx, hcontra.2],
            hcontra.1⟩
        simp [TGraph.edgeData, hg', List.filter_append, hnone, hc,
          decide_eq_true_eq]
      have houter : ∀ st : List (TValue α × Nat) × List (String × TValue α),
          (g.parents c).foldl
              (fun st p => (g'.edgeData p c).foldl (regularStep g' p) st) st =
            (g.parents c).foldl
              (fun st p => (g.edgeData p c).foldl (regularStep g p) st) st :=
        fun st => List.foldl_ext _ _ st
          (fun st' p hmem => by rw [hstep p, hed p hmem])
      rw [hparents, List.foldl_append]
      simp only [List.foldl_cons, List.foldl_nil]
      rw [houter, hednew]
      simp [regularStep, he]
  · have hinto : g'.edgesInto c = g.edgesInto c := by
      simp [TGraph.edgesInto, hg', List.filter_append, hc]
    have hparents : g'.parents c = g.parents c := by
      rw [TGraph.parents, TGraph.parents, hinto]
    have hed : ∀ p, g'.edgeData p c = g.edgeData p c := by
      intro p
      simp [TGraph.edgeData, hg', List.filter_append, hc]
    rw [hparents]
    exact List.foldl_ext _ _ _ (fun st p hmem => by rw [hstep p, hed p])

/-! ### Closed form of the regular branch and last-entry lookup facts -/

theorem get_task_inputs_regular_eq {α : Type} (g : TGraph α) (c : Nat)
    (name : String)
    (h1 : pyStartsWith name electronListMarker = false)
    (h2 : pyStartsWith name electronDictMarker = false) :
    get_task_inputs g c name =
      { args := ((argPairs g c).mergeSort
          (fun a b => a.2 ≤ b.2)).map (fun x => x.1),
        kwargs := (kwargEntries g c).foldl
          (fun m q => dictInsert m q.1 q.2) [] } := by
  simp only [get_task_inputs, h1, h2, Bool.false_eq_true, if_false]
  have hfst := regular_outer_fst g c (g.parents c)
    (([], []) : List (TValue α × Nat) × List (String × TValue α))
  have hsnd := regular_outer_snd g c (g.parents c)
    (([], []) : List (TValue α × Nat) × List (String × TValue α))
  rw [hfst, hsnd]
  simp [argPairs, kwargEntries]

theorem lastVal_unique {β : Type} (l : List (String × β)) (k : String) (v : β)
    (hm : (k, v) ∈ l) (hu : (l.map (fun q => q.1)).count k = 1) :
    lastVal k l = some v := by
  unfold lastVal
  have hsome : (l.reverse.find? (fun q => q.1 = k)).isSome := by
    rw [List.find?_isSome]
    exact ⟨(k, v), List.mem_reverse.mpr hm, by simp⟩
  obtain ⟨r, hr⟩ := Option.isSome_iff_exists.mp hsome
  have hrk : r.1 = k := by simpa using List.find?_some hr
  have hrmem : r ∈ l := List.mem_reverse.mp (List.mem_of_find?_eq_some hr)
  have hcount : (l.filter (fun q => q.1 == k)).length = 1 := by
    rw [← List.countP_eq_length_filter]
    rw [List.count_eq_countP, List.countP_map] at hu
    exact hu
  obtain ⟨x, hx⟩ := List.length_eq_one.mp hcount
  have hrx : r = x := by
    have hrf : r ∈ l.filter (fun q => q.1 == k) :=
      List.mem_filter.mpr ⟨hrmem, by simp [hrk]⟩
    rw [hx] at hrf
    simpa using hrf
  have hkv : (k, v) = x := by
    have hvf : (k, v) ∈ l.filter (fun q => q.1 == k) :=
      List.mem_filter.mpr ⟨hm, by simp⟩
    rw [hx] at hvf
    simpa using hvf
  rw [hr]
  simp [hrx, ← hkv]

theorem lastVal_isSome_iff {β : Type} (l : List (String × β)) (k : String) :
    (∃ v, lastVal k l = some v) ↔ k ∈ l.map (fun q => q.1) := by
  unfold lastVal
  constructor
  · rintro ⟨v, hv⟩
    cases hf : l.reverse.find? (fun q => q.1 = k) with
    | none => rw [hf] at hv; simp at hv
    | some r =>
        have hrk : r.1 = k := by simpa using List.find?_some hf
        have hrmem : r ∈ l := List.mem_reverse.mp (List.mem_of_find?_eq_some hf)
        exact List.mem_map.mpr ⟨r, hrmem, hrk⟩
  · intro hk
    obtain ⟨q, hq, hqk⟩ := List.mem_map.mp hk
    have hsome : (l.reverse.find? (fun r => r.1 = k)).isSome := by
      rw [List.find?_isSome]
      exact ⟨q, List.mem_reverse.mpr hq, by simp [hqk]⟩
    obtain ⟨r, hr⟩ := Option.isSome_iff_exists.mp hsome
    exact ⟨r.2, by rw [hr]; rfl⟩

/-! ## Claim C3 -/

/-- C3: for a regular node, the positional arguments are exactly the values
of the incoming non-wait "arg" edges sorted ascending by arg_index; keyword
lookup of an edge name yields the corresponding parent output (uniquely named
kwarg edges), a keyword is present exactly when some non-wait "kwarg" edge
carries it, and adding a wait-for edge changes nothing. -/
theorem C3_regular_task_inputs {α : Type} (g : TGraph α) (c : Nat)
    (name : String)
    (h1 : pyStartsWith name electronListMarker = false)
    (h2 : pyStartsWith name electronDictMarker = false) :
    (∃ l : List (TValue α × Nat),
        l.Perm (argPairs g c) ∧
        List.Pairwise (fun a b => a.2 ≤ b.2) l ∧
        (get_task_inputs g c name).args = l.map (fun x => x.1)) ∧
    (∀ (k : String) (v : TValue α),
        (k, v) ∈ kwargEntries g c →
        ((kwargEntries g c).map (fun q => q.1)).count k = 1 →
        slookup k (get_task_inputs g c name).kwargs = some v) ∧
    (∀ k : String,
        (∃ v, slookup k (get_task_inputs g c name).kwargs = some v) ↔
          k ∈ (kwargEntries g c).map (fun q => q.1)) ∧
    (∀ e : Nat × Nat × EdgeData, e.2.2.wait_for = true →
        get_task_inputs
            { nodes := g.nodes, edges := g.edges ++ [e], output := g.output }
            c name = get_task_inputs g c name) := by
  have hexp := get_task_inputs_regular_eq g c name h1 h2
  have hlook : ∀ k, slookup k (get_task_inputs g c name).kwargs =
      lastVal k (kwargEntries g c) := by
    intro k
    rw [hexp]
    show slookup k ((kwargEntries g c).foldl
      (fun m q => dictInsert m q.1 q.2) []) = _
    rw [slookup_foldl_dictInsert]
    simp [slookup]
  refine ⟨⟨(argPairs g c).mergeSort (fun a b => a.2 ≤ b.2),
      List.mergeSort_perm _ _, pairwise_mergeSort_argIdx _, by rw [hexp]⟩,
    fun k v hm hu => by rw [hlook k]; exact lastVal_unique _ k v hm hu,
    fun k => by rw [hlook k]; exact lastVal_isSome_iff _ k,
    fun e he => regular_inputs_append_wait_edge g c name h1 h2 e he⟩

/-- A concrete regular node 3 with two non-wait "arg" edges (indices 1 and
0), one "kwarg" edge and one wait-for edge. -/
def regularGraphEx : TGraph Nat :=
  { nodes := [0, 1, 2, 3],
    edges :=
      [ (0, 3, { edge_name := "a", param_type := "arg", arg_index := 1,
                 wait_for := false }),
        (1, 3, { edge_name := "b", param_type := "kwarg", arg_index := 0,
                 wait_for := false }),
        (2, 3, { edge_name := "w", param_type := "arg", arg_index := 0,
                 wait_for := true }),
        (0, 3, { edge_name := "c", param_type := "arg", arg_index := 0,
                 wait_for := false }) ],
    output := fun n => TValue.obj n }

/-- C3 witness: the theorem applied to the concrete regular-node graph. -/
theorem C3_witness :
    (∃ l : List (TValue Nat × Nat),
        l.Perm (argPairs regularGraphEx 3) ∧
        List.Pairwise (fun a b => a.2 ≤ b.2) l ∧
        (get_task_inputs regularGraphEx 3 "task").args =
          l.map (fun x => x.1)) ∧
    (∀ (k : String) (v : TValue Nat),
        (k, v) ∈ kwargEntries regularGraphEx 3 →
        ((kwargEntries regularGraphEx 3).map (fun q => q.1)).count k = 1 →
        slookup k (get_task_inputs regularGraphEx 3 "task").kwargs = some v) ∧
    (∀ k : String,
        (∃ v, slookup k (get_task_inputs regularGraphEx 3 "task").kwargs
            = some v) ↔
          k ∈ (kwargEntries regularGraphEx 3).map (fun q => q.1)) ∧
    (∀ e : Nat × Nat × EdgeData, e.2.2.wait_for = true →
        get_task_inputs
            { nodes := regularGraphEx.nodes,
              edges := regularGraphEx.edges ++ [e],
              output := regularGraphEx.output } 3 "task"
          = get_task_inputs regularGraphEx 3 "task") :=
  C3_regular_task_inputs regularGraphEx 3 "task" rfl rfl

/-! ## Scheduler dependency counting (`_handle_completed_node` and
`_initialize_deps_and_queue` in `execution.py`) -/

/-- Body of the child loop of `_handle_completed_node` (`execution.py` lines
516-521): decrement the child's pending counter once per parallel edge from
the completed node, then enqueue the child when the counter dropped below
1. The scheduler state is the pending-counter table paired with the ready
queue (its entries appended by `tasks_queue.put`). -/
def hcnStep {α : Type} (g : TGraph α) (node_id : Nat)
    (st : (Nat → Int) × List Nat) (child : Nat) : (Nat → Int) × List Nat :=
  let newPending :=
    (g.edgeData node_id child).foldl (fun v _ => v - 1) (st.1 child)
  ( fun n => if n = child then newPending else st.1 n,
    if newPending < 1 then st.2 ++ [child] else st.2 )

/-- Shallow embedding of `_handle_completed_node` (`execution.py` lines
513-521): iterate over the adjacency of the completed node (each child once,
with its parallel-edge list). -/
def handle_completed_node {α : Type} (g : TGraph α) (node_id : Nat)
    (st : (Nat → Int) × List Nat) : (Nat → Int) × List Nat :=
  (g.childrenOf node_id).foldl (hcnStep g node_id) st

/-- Shallow embedding of `_initialize_deps_and_queue` (`execution.py` lines
575-592): set every node's pending counter to its multigraph in-degree,
enqueue the zero-in-degree nodes, and count the nodes. -/
def init_deps_and_queue {α : Type} (g : TGraph α) :
    (Nat → Int) × List Nat × Nat :=
  g.nodes.foldl
    (fun st n =>
      ( fun m => if m = n then (g.inDegree n : Int) else st.1 m,
        if g.inDegree n = 0 then st.2.1 ++ [n] else st.2.1,
        st.2.2 + 1 ))
    (fun _ => 0, [], 0)

/-- A scheduler run in which the COMPLETED events of the nodes `ps` are
handled in order, starting from the initialized dependency state. -/
def process_completed {α : Type} (g : TGraph α) (ps : List Nat) :
    (Nat → Int) × List Nat :=
  ps.foldl (fun st p => handle_completed_node g p st)
    ((init_deps_and_queue g).1, (init_deps_and_queue g).2.1)

/-- Total number of decrements applied to node `c` by the COMPLETED events of
the nodes `ps`: one per edge instance from each completed parent. -/
def decrements {α : Type} (g : TGraph α) (ps : List Nat) (c : Nat) : Nat :=
  (ps.map (fun p => g.multiplicity p c)).sum

theorem foldl_sub_one (l : List EdgeData) :
    ∀ v : Int, l.foldl (fun v _ => v - 1) v = v - l.length := by
  induction l with
  | nil => intro v; simp
  | cons d l ih =>
      intro v
      rw [List.foldl_cons, ih]
      simp
      omega

theorem mem_childrenOf_iff {α : Type} (g : TGraph α) (p c : Nat) :
    c ∈ g.childrenOf p ↔ 0 < g.multiplicity p c := by
  rw [TGraph.childrenOf, mem_firstDedup, List.mem_map]
  have hm : g.multiplicity p c =
      List.countP (fun e => decide (e.1 = p ∧ e.2.1 = c)) g.edges := by
    rw [TGraph.multiplicity, TGraph.edgeData, List.length_map,
      List.countP_eq_length_filter]
  rw [hm, List.countP_pos_iff]
  constructor
  · rintro ⟨x, hx, hxc⟩
    have hx' := List.mem_filter.mp hx
    simp only [decide_eq_true_eq] at hx'
    exact ⟨x, hx'.1, by simp [hx'.2, hxc]⟩
  · rintro ⟨x, hx, hpx⟩
    simp only [decide_eq_true_eq] at hpx
    exact ⟨x, List.mem_filter.mpr ⟨hx, by simp [hpx.1]⟩, hpx.2⟩

theorem hcn_fold_untouched {α : Type} (g : TGraph α) (p : Nat)
    (L : List Nat) :
    ∀ (st : (Nat → Int) × List Nat) (c : Nat), c ∉ L →
      ((L.foldl (hcnStep g p) st).1 c = st.1 c ∧
       (L.foldl (hcnStep g p) st).2.count c = st.2.count c) := by
  induction L with
  | nil => intro st c _; exact ⟨rfl, rfl⟩
  | cons child L ih =>
      intro st c hc
      have hne : c ≠ child := fun h => hc (h ▸ List.mem_cons_self child L)
      have hc' : c ∉ L := fun h => hc (List.mem_cons_of_mem child h)
      rw [List.foldl_cons]
      obtain ⟨ih1, ih2⟩ := ih (hcnStep g p st child) c hc'
      refine ⟨?_, ?_⟩
      · rw [ih1]
        simp [hcnStep, hne]
      · rw [ih2]
        simp only [hcnStep]
        split
        · rw [List.count_append]
          simp [List.count_cons, hne]
        · rfl

theorem handle_completed_node_at {α : Type} (g : TGraph α) (p : Nat)
    (st : (Nat → Int) × List Nat) (c : Nat) :
    ((handle_completed_node g p st).1 c =
        st.1 c - g.multiplicity p c) ∧
    ((handle_completed_node g p st).2.count c =
        st.2.count c +
          (if 0 < g.multiplicity p c ∧
              st.1 c - (g.multiplicity p c : Int) < 1
           then 1 else 0)) := by
  unfold handle_completed_node
  by_cases hc : c ∈ g.childrenOf p
  · obtain ⟨L1, L2, hsplit⟩ := List.append_of_mem hc
    have hnodup : (L1 ++ c :: L2).Nodup := hsplit ▸ nodup_firstDedup _
    have hcL1 : c ∉ L1 := by
      rw [List.nodup_append] at hnodup
      exact fun h => hnodup.2.2 h (List.mem_cons_self c L2)
    have hcL2 : c ∉ L2 := by
      rw [List.nodup_append] at hnodup
      exact (List.nodup_cons.mp hnodup.2.1).1
    rw [hsplit, List.foldl_append, List.foldl_cons]
    obtain ⟨h11, h12⟩ := hcn_fold_untouched g p L1 st c hcL1
    obtain ⟨h21, h22⟩ :=
      hcn_fold_untouched g p L2 (hcnStep g p (L1.foldl (hcnStep g p) st) c) c hcL2
    have hpend : (hcnStep g p (L1.foldl (hcnStep g p) st) c).1 c =
        st.1 c - g.multiplicity p c := by
      simp [hcnStep, foldl_sub_one, h11, TGraph.multiplicity]
    have hmultpos : 0 < g.multiplicity p c := (mem_childrenOf_iff g p c).mp hc
    refine ⟨by rw [h21, hpend], ?_⟩
    rw [h22]
    simp only [hcnStep, foldl_sub_one, h11]
    rw [TGraph.multiplicity] at hmultpos ⊢
    split
    · rw [List.count_append, if_pos ⟨hmultpos, by assumption⟩]
      simp [List.count_cons, h12]
    · rw [if_neg (fun hh => by omega)]
      exact h12
  · have hmult : g.multiplicity p c = 0 := by
      by_contra h
      exact hc ((mem_childrenOf_iff g p c).mpr (Nat.pos_of_ne_zero h))
    obtain ⟨h1, h2⟩ := hcn_fold_untouched g p (g.childrenOf p) st c hc
    rw [h1, h2, hmult]
    simp

theorem init_pending_foldl {α : Type} (g : TGraph α) (l : List Nat) :
    ∀ (acc : (Nat → Int) × List Nat × Nat) (c : Nat),
      (l.foldl
        (fun (st : (Nat → Int) × List Nat × Nat) n =>
          ( fun m => if m = n then (g.inDegree n : Int) else st.1 m,
            if g.inDegree n = 0 then st.2.1 ++ [n] else st.2.1,
            st.2.2 + 1 )) acc).1 c =
        if c ∈ l then (g.inDegree c : Int) else acc.1 c := by
  induction l with
  | nil => intro acc c; simp
  | cons n l ih =>
      intro acc c
      rw [List.foldl_cons, ih]
      by_cases hcl : c ∈ l
      · rw [if_pos hcl, if_pos (List.mem_cons_of_mem n hcl)]
      · rw [if_neg hcl]
        by_cases hcn : c = n
        · subst hcn
          simp
        · simp [hcn, hcl]

theorem init_queue_foldl {α : Type} (g : TGraph α) (l : List Nat) :
    ∀ acc : (Nat → Int) × List Nat × Nat,
      (∀ x ∈ acc.2.1, g.inDegree x = 0) →
      ∀ x ∈ (l.foldl
        (fun (st : (Nat → Int) × List Nat × Nat) n =>
          ( fun m => if m = n then (g.inDegree n : Int) else st.1 m,
            if g.inDegree n = 0 then st.2.1 ++ [n] else st.2.1,
            st.2.2 + 1 )) acc).2.1, g.inDegree x = 0 := by
  induction l with
  | nil => intro acc hacc; exact hacc
  | cons n l ih =>
      intro acc hacc
      rw [List.foldl_cons]
      refine ih _ ?_
      intro x hx
      by_cases hdeg : g.inDegree n = 0
      · rw [if_pos hdeg] at hx
        rcases List.mem_append.mp hx with h | h
        · exact hacc x h
        · rw [List.mem_singleton] at h
          rw [h]
          exact hdeg
      · rw [if_neg hdeg] at hx
        exact hacc x hx

theorem init_pending_at {α : Type} (g : TGraph α) (c : Nat)
    (hc : c ∈ g.nodes) :
    (init_deps_and_queue g).1 c = (g.inDegree c : Int) := by
  unfold init_deps_and_queue
  rw [init_pending_foldl, if_pos hc]

theorem init_queue_count {α : Type} (g : TGraph α) (c : Nat)
    (hd : 0 < g.inDegree c) :
    ((init_deps_and_queue g).2.1).count c = 0 := by
  rw [List.count_eq_zero]
  intro hmem
  have := init_queue_foldl g g.nodes (fun _ => 0, [], 0)
    (by intro x hx; exact absurd hx (List.not_mem_nil x)) c hmem
  omega

theorem filter_mem_cons_length (s : List Nat) (p : Nat) (ps : List Nat)
    (hp : p ∉ ps) :
    (s.filter (fun x => x ∈ p :: ps)).length =
      s.count p + (s.filter (fun x => x ∈ ps)).length := by
  induction s with
  | nil => simp
  | cons a s ih =>
      rw [List.filter_cons, List.filter_cons]
      by_cases hap : a = p
      · subst hap
        have haps : a ∉ ps := hp
        rw [if_pos (by simp), if_neg (by simpa using haps),
          List.length_cons, ih, List.count_cons_self]
        omega
      · by_cases haps : a ∈ ps
        · rw [if_pos (by simp [haps]), if_pos (by simpa using haps),
            List.length_cons, List.length_cons, ih,
            List.count_cons_of_ne (fun hh => hap hh.symm)]
          omega
        · rw [if_neg (by simp [hap, haps]), if_neg (by simpa using haps), ih,
            List.count_cons_of_ne (fun hh => hap hh.symm)]

theorem sum_count_nodup (s : List Nat) :
    ∀ ps : List Nat, ps.Nodup →
      (ps.map (fun p => s.count p)).sum =
        (s.filter (fun x => x ∈ ps)).length := by
  intro ps
  induction ps with
  | nil => intro _; simp
  | cons p ps ih =>
      intro hnd
      have hp : p ∉ ps := (List.nodup_cons.mp hnd).1
      rw [List.map_cons, List.sum_cons, ih (List.nodup_cons.mp hnd).2,
        filter_mem_cons_length s p ps hp]

theorem multiplicity_eq_count {α : Type} (g : TGraph α) (p c : Nat) :
    g.multiplicity p c = ((g.edgesInto c).map (fun e => e.1)).count p := by
  rw [TGraph.multiplicity, TGraph.edgeData, List.length_map,
    List.count_eq_countP, List.countP_map, ← List.countP_eq_length_filter,
    TGraph.edgesInto]
  rw [List.countP_filter]
  refine List.countP_congr ?_
  intro x _
  by_cases h1 : x.1 = p <;> by_cases h2 : x.2.1 = c <;>
    simp [h1, h2, Function.comp]

theorem decrements_append {α : Type} (g : TGraph α) (ps : List Nat) (p c : Nat) :
    decrements g (ps ++ [p]) c = decrements g ps c + g.multiplicity p c := by
  rw [decrements, decrements, List.map_append, List.sum_append]
  simp

theorem decrements_le_inDegree {α : Type} (g : TGraph α) (ps : List Nat)
    (c : Nat) (h : ps.Nodup) :
    decrements g ps c ≤ g.inDegree c := by
  have hmap : ps.map (fun p => g.multiplicity p c) =
      ps.map (fun p => ((g.edgesInto c).map (fun e => e.1)).count p) := by
    simp only [multiplicity_eq_count]
  rw [decrements, hmap, sum_count_nodup _ ps h]
  calc ((((g.edgesInto c).map (fun e => e.1)).filter
          (fun x => x ∈ ps)).length)
      ≤ ((g.edgesInto c).map (fun e => e.1)).length :=
        List.length_filter_le _ _
    _ = g.inDegree c := by rw [List.length_map, TGraph.inDegree]

/-! ## Claim C1 -/

/-- C1: over a run in which each node completes at most once, every COMPLETED
event decrements each child's pending counter exactly once per edge instance
(the counter always equals in-degree minus the edge instances decremented so
far), and a child with at least one dependency appears on the ready queue
exactly once when all of its incoming edge instances have been decremented,
and never before. -/
theorem C1_pending_and_queue {α : Type} (g : TGraph α) (ps : List Nat)
    (c : Nat) (hps : ps.Nodup) (hc : c ∈ g.nodes) (hd : 0 < g.inDegree c) :
    ((process_completed g ps).1 c =
        (g.inDegree c : Int) - decrements g ps c) ∧
    ((process_completed g ps).2.count c =
        if decrements g ps c = g.inDegree c then 1 else 0) := by
  unfold process_completed
  induction ps using List.reverseRecOn with
  | nil =>
      refine ⟨?_, ?_⟩
      · rw [List.foldl_nil, init_pending_at g c hc]
        simp [decrements]
      · rw [List.foldl_nil, init_queue_count g c hd]
        rw [if_neg (by simp [decrements]; omega)]
  | append_singleton ps p ih =>
      have hnd : ps.Nodup ∧ p ∉ ps := by
        rw [List.nodup_append] at hps
        exact ⟨hps.1, fun h => hps.2.2 h (List.mem_singleton.mpr rfl)⟩
      obtain ⟨ih1, ih2⟩ := ih hnd.1
      have hle : decrements g (ps ++ [p]) c ≤ g.inDegree c :=
        decrements_le_inDegree g (ps ++ [p]) c hps
      have hle' : decrements g ps c ≤ g.inDegree c :=
        decrements_le_inDegree g ps c hnd.1
      rw [List.foldl_append, List.foldl_cons, List.foldl_nil]
      obtain ⟨hs1, hs2⟩ := handle_completed_node_at g p
        (ps.foldl (fun st p => handle_completed_node g p st)
          ((init_deps_and_queue g).1, (init_deps_and_queue g).2.1)) c
      rw [decrements_append] at hle ⊢
      constructor
      · rw [hs1, ih1]
        omega
      · rw [hs2, ih2, ih1]
        by_cases hm : 0 < g.multiplicity p c
        · have hne : ¬ decrements g ps c = g.inDegree c := by omega
          rw [if_neg hne]
          by_cases hall : decrements g ps c + g.multiplicity p c = g.inDegree c
          · rw [if_pos hall, if_pos ⟨hm, by omega⟩]
          · rw [if_neg hall, if_neg (fun hcontra => hall (by
              have := hcontra.2
              push_cast at this
              omega))]
        · have hm0 : g.multiplicity p c = 0 := by omega
          rw [hm0]
          simp

/-- A concrete graph for the C1 witness: node 2 has two parallel edges from
node 0 and one edge from node 1 (in-degree 3). -/
def diamondGraphEx : TGraph Nat :=
  { nodes := [0, 1, 2],
    edges :=
      [ (0, 2, sampleEdge),
        (0, 2, { sampleEdge with edge_name := "a2", arg_index := 1 }),
        (1, 2, { sampleEdge with edge_name := "b", arg_index := 2 }) ],
    output := fun n => TValue.obj n }

/-- C1 witness: the theorem applied to the concrete multigraph after both
parents completed. -/
theorem C1_witness :
    ((process_completed diamondGraphEx [0, 1]).1 2 =
        (diamondGraphEx.inDegree 2 : Int) -
          decrements diamondGraphEx [0, 1] 2) ∧
    ((process_completed diamondGraphEx [0, 1]).2.count 2 =
        if decrements diamondGraphEx [0, 1] 2 = diamondGraphEx.inDegree 2
        then 1 else 0) :=
  C1_pending_and_queue diamondGraphEx [0, 1] 2 (by decide) (by decide)
    (by decide)

/-! ## Executor cache and teardown (`ExecutorCache`, `_get_executor_instance`
and the epilogue of `_run_planned_workflow` in `execution.py`)

The per-task teardown behaviour of executors lives in the executor base
class, which is not part of the sources here; it is modelled from the spec
where noted. -/

/-- A live executor instance: its remaining task count (`_tasks_left`, set at
construction from the cache's planned tally), its `shared` attribute, and the
number of times `teardown` has been called on it. -/
structure ExecInst where
  tasksLeft : Int
  shared : Bool
  teardownCount : Nat
  deriving DecidableEq, Repr

/-- The cache state attached to one `instance_id`: the entry of
`id_instance_map` (None until a shared instance is cached), the non-shared
instances constructed for this id (use once and discard), and how many
instances were constructed in total. -/
structure IdState where
  cached : Option ExecInst
  discarded : List ExecInst
  constructions : Nat
  deriving DecidableEq, Repr

/-- The initial per-id cache state (`id_instance_map[executor_id] = None`). -/
def initIdState : IdState :=
  { cached := none, discarded := [], constructions := 0 }

/-- One task as the executor layer sees it: the `instance_id` of its selected
executor, the descriptor's `shared` attribute, the `unplanned_task` flag, and
whether the task's node result fails the workflow. -/
structure TaskSpec where
  executor_id : Nat
  shared : Bool
  unplanned : Bool
  fails : Bool
  deriving DecidableEq, Repr

/-- Modelled from the spec: the base executor's per-task accounting is not
under src/.  Per §4.4 step 3 the constructed instance records
`tasks_left = planned count`; per §8 (cache semantics, and scenario 4: one
construction, four `execute` calls, one `teardown`) and §4.3 (the completed
path never calls `finalize_executors`), running a task decrements the
instance's remaining count and tears the instance down once when the count
reaches zero. -/
def execRun (e : ExecInst) : ExecInst :=
  let d := { e with tasksLeft := e.tasksLeft - 1 }
  if d.tasksLeft = 0 then { d with teardownCount := d.teardownCount + 1 }
  else d

/-- Write-back of the instance state after a task ran: a shared instance
stays in (or enters) the cache, a non-shared one is used once and discarded;
a fresh construction is tallied. -/
def writeBack (s : IdState) (inst2 : ExecInst) (fresh : Bool) : IdState :=
  if inst2.shared then
    { cached := some inst2, discarded := s.discarded,
      constructions := s.constructions + (if fresh then 1 else 0) }
  else
    { cached := s.cached, discarded := s.discarded ++ [inst2],
      constructions := s.constructions + (if fresh then 1 else 0) }

/-- Shallow embedding of `_get_executor_instance` (`execution.py` lines
304-349) followed by the task's execution on the obtained instance.  A cache
miss (`id_instance_map[executor_id]` falsy) constructs a new instance with
`_tasks_left = tasks_per_instance[executor_id]` and caches it when its
`shared` attribute is set; an unplanned task on a shared instance increments
the task count before use (`increment_task_count`, modelled from §4.4 step
3).  The state after running the task is written back with `writeBack`. -/
def runTaskOnCache (tpi : Nat → Nat) (st : Nat → IdState) (t : TaskSpec) :
    Nat → IdState :=
  let s := st t.executor_id
  let pick : ExecInst × Bool :=
    match s.cached with
    | some e => (e, false)
    | none =>
        ({ tasksLeft := (tpi t.executor_id : Int), shared := t.shared,
           teardownCount := 0 }, true)
  let inst1 :=
    if t.unplanned ∧ pick.1.shared then
      { pick.1 with tasksLeft := pick.1.tasksLeft + 1 }
    else pick.1
  let s' := writeBack s (execRun inst1) pick.2
  fun n => if n = t.executor_id then s' else st n

/-- The scheduling loop of `_run_planned_workflow`, projected onto the
executor layer: run the tasks in order; a task whose node result is FAILED
makes the loop stop (sentinel on the queue) with the workflow failed. -/
def runWorkflowTasks (tpi : Nat → Nat) :
    (Nat → IdState) → List TaskSpec → (Nat → IdState) × Bool
  | st, [] => (st, false)
  | st, t :: ts =>
      let st' := runTaskOnCache tpi st t
      if t.fails then (st', true) else runWorkflowTasks tpi st' ts

/-- One iteration of the loop of `ExecutorCache.finalize_executors`
(`execution.py` lines 104-113): skip a None entry of `id_instance_map`, call
`teardown` on a live one. -/
def finalizeStep (st : Nat → IdState) (i : Nat) : Nat → IdState :=
  match (st i).cached with
  | none => st
  | some e =>
      fun n =>
        if n = i then
          { cached := some { e with teardownCount := e.teardownCount + 1 },
            discarded := (st i).discarded,
            constructions := (st i).constructions }
        else st n

/-- Shallow embedding of `ExecutorCache.finalize_executors`: walk the keys of
`id_instance_map` and call `teardown` on every entry that is not None. -/
def finalize_executors (st : Nat → IdState) : List Nat → (Nat → IdState)
  | [] => st
  | i :: ids => finalize_executors (finalizeStep st i) ids

/-- The executor-layer lifecycle of one workflow run (`_run_planned_workflow`
lines 700-831): run the tasks from a fresh cache; if the workflow failed or
was cancelled, call `finalize_executors` on the cache; on the completed path
`finalize_executors` is not called. -/
def executorLifecycle (tpi : Nat → Nat) (ids : List Nat)
    (ts : List TaskSpec) : Nat → IdState :=
  if (runWorkflowTasks tpi (fun _ => initIdState) ts).2 then
    finalize_executors (runWorkflowTasks tpi (fun _ => initIdState) ts).1 ids
  else (runWorkflowTasks tpi (fun _ => initIdState) ts).1

/-- The teardown call counts of all instances constructed for one
`instance_id` (the cached one, if any, and the discarded ones). -/
def teardownCounts (st : Nat → IdState) (i : Nat) : List Nat :=
  ((st i).cached.toList ++ (st i).discarded).map (fun e => e.teardownCount)

/-- Number of tasks in `ts` planned against `instance_id` `i`. -/
def remTaskCount (ts : List TaskSpec) (i : Nat) : Nat :=
  (ts.filter (fun t => t.executor_id = i)).length

/-! ### Characterization of one executor-layer task step -/

theorem execRun_eq (x : Int) (s : Bool) (n : Nat) :
    execRun { tasksLeft := x, shared := s, teardownCount := n } =
      { tasksLeft := x - 1, shared := s,
        teardownCount := if x - 1 = 0 then n + 1 else n } := by
  by_cases h : x - 1 = 0 <;> simp [execRun, h]

theorem execRun_shared (e : ExecInst) : (execRun e).shared = e.shared := by
  cases e with
  | mk x s n => rw [execRun_eq]

theorem runTaskOnCache_at_other (tpi : Nat → Nat) (st : Nat → IdState)
    (t : TaskSpec) (n : Nat) (h : ¬ n = t.executor_id) :
    runTaskOnCache tpi st t n = st n := by
  simp [runTaskOnCache, h]

theorem writeBack_constructions (s : IdState) (inst2 : ExecInst)
    (fresh : Bool) :
    (writeBack s inst2 fresh).constructions =
      s.constructions + (if fresh then 1 else 0) := by
  unfold writeBack
  split <;> rfl

theorem writeBack_cached_shared (s : IdState) (inst2 : ExecInst)
    (fresh : Bool) (h : inst2.shared = true) :
    (writeBack s inst2 fresh).cached = some inst2 := by
  unfold writeBack
  rw [if_pos h]

theorem writeBack_shared (s : IdState) (inst2 : ExecInst) (fresh : Bool)
    (h : inst2.shared = true) :
    writeBack s inst2 fresh =
      { cached := some inst2, discarded := s.discarded,
        constructions := s.constructions + (if fresh then 1 else 0) } := by
  unfold writeBack
  rw [if_pos h]

theorem writeBack_not_shared (s : IdState) (inst2 : ExecInst) (fresh : Bool)
    (h : inst2.shared = false) :
    writeBack s inst2 fresh =
      { cached := s.cached, discarded := s.discarded ++ [inst2],
        constructions := s.constructions + (if fresh then 1 else 0) } := by
  unfold writeBack
  rw [if_neg (by simp [h])]

theorem writeBack_cached_some (s : IdState) (inst2 : ExecInst) (fresh : Bool)
    (e : ExecInst) (h : s.cached = some e) :
    ∃ e', (writeBack s inst2 fresh).cached = some e' := by
  unfold writeBack
  split
  · exact ⟨inst2, rfl⟩
  · exact ⟨e, h⟩

theorem runTaskOnCache_at_hit (tpi : Nat → Nat) (st : Nat → IdState)
    (t : TaskSpec) (e : ExecInst)
    (hc : (st t.executor_id).cached = some e) :
    runTaskOnCache tpi st t t.executor_id =
      writeBack (st t.executor_id)
        (execRun
          (if t.unplanned ∧ e.shared then
            { e with tasksLeft := e.tasksLeft + 1 } else e))
        false := by
  simp [runTaskOnCache, hc]

theorem runTaskOnCache_at_miss (tpi : Nat → Nat) (st : Nat → IdState)
    (t : TaskSpec) (hc : (st t.executor_id).cached = none) :
    runTaskOnCache tpi st t t.executor_id =
      writeBack (st t.executor_id)
        (execRun
          (if t.unplanned ∧ t.shared then
            { tasksLeft := (tpi t.executor_id : Int) + 1, shared := t.shared,
              teardownCount := 0 }
          else
            { tasksLeft := (tpi t.executor_id : Int), shared := t.shared,
              teardownCount := 0 }))
        true := by
  simp only [runTaskOnCache, hc]
  split
  · simp
  · simp_all

/-! ### At most one shared instance per instance_id -/

/-- Invariant tying the cache entry of an instance_id to its construction
count: nothing constructed while the entry is None, exactly one construction
once an instance is cached. -/
def CacheUniq (st : Nat → IdState) (i : Nat) : Prop :=
  ((st i).cached = none → (st i).constructions = 0) ∧
  (∀ e, (st i).cached = some e → (st i).constructions = 1)

theorem uniq_step (tpi : Nat → Nat) (st : Nat → IdState) (t : TaskSpec)
    (i : Nat) (hsh : t.executor_id = i → t.shared = true)
    (h : CacheUniq st i) : CacheUniq (runTaskOnCache tpi st t) i := by
  by_cases hi : i = t.executor_id
  · subst hi
    unfold CacheUniq at h ⊢
    cases hc : (st t.executor_id).cached with
    | some e =>
        rw [runTaskOnCache_at_hit tpi st t e hc]
        refine ⟨fun hh => ?_, fun e' _ => ?_⟩
        · obtain ⟨e'', he''⟩ := writeBack_cached_some (st t.executor_id) _
            false e hc
          rw [he''] at hh
          exact Option.noConfusion hh
        · rw [writeBack_constructions]
          simp [h.2 e hc]
    | none =>
        rw [runTaskOnCache_at_miss tpi st t hc]
        have hshared : t.shared = true := hsh rfl
        have hs2 : (execRun
            (if t.unplanned ∧ t.shared then
              { tasksLeft := (tpi t.executor_id : Int) + 1,
                shared := t.shared, teardownCount := 0 }
            else
              { tasksLeft := (tpi t.executor_id : Int), shared := t.shared,
                teardownCount := 0 } : ExecInst)).shared = true := by
          rw [execRun_shared]
          split
          · exact hshared
          · exact hshared
        refine ⟨fun hh => ?_, fun e' _ => ?_⟩
        · rw [writeBack_cached_shared _ _ _ hs2] at hh
          exact Option.noConfusion hh
        · rw [writeBack_constructions]
          simp [h.1 hc]
  · unfold CacheUniq at h ⊢
    rw [runTaskOnCache_at_other tpi st t i hi]
    exact h

theorem runWorkflowTasks_uniq (tpi : Nat → Nat) (ts : List TaskSpec) :
    ∀ (st : Nat → IdState) (i : Nat),
      (∀ t ∈ ts, t.executor_id = i → t.shared = true) →
      CacheUniq st i →
      CacheUniq ((runWorkflowTasks tpi st ts).1) i := by
  induction ts with
  | nil => intro st i _ h; exact h
  | cons t ts ih =>
      intro st i hsh h
      have hstep := uniq_step tpi st t i
        (hsh t (List.mem_cons_self t ts)) h
      by_cases hf : t.fails = true
      · simp only [runWorkflowTasks, hf, if_true]
        exact hstep
      · rw [Bool.not_eq_true] at hf
        simp only [runWorkflowTasks, hf, Bool.false_eq_true, if_false]
        exact ih _ i (fun u hu => hsh u (List.mem_cons_of_mem t hu)) hstep

theorem finalizeStep_none (st : Nat → IdState) (i : Nat)
    (h : (st i).cached = none) : finalizeStep st i = st := by
  unfold finalizeStep
  rw [h]

theorem finalizeStep_some (st : Nat → IdState) (i : Nat) (e : ExecInst)
    (h : (st i).cached = some e) :
    finalizeStep st i = fun n =>
      if n = i then
        { cached := some { e with teardownCount := e.teardownCount + 1 },
          discarded := (st i).discarded,
          constructions := (st i).constructions }
      else st n := by
  unfold finalizeStep
  rw [h]

theorem finalize_preserves (ids : List Nat) :
    ∀ (st : Nat → IdState) (i : Nat),
      ((finalize_executors st ids) i).constructions =
          (st i).constructions ∧
      (((finalize_executors st ids) i).cached = none ↔
          (st i).cached = none) ∧
      ((finalize_executors st ids) i).discarded = (st i).discarded := by
  induction ids with
  | nil => intro st i; exact ⟨rfl, Iff.rfl, rfl⟩
  | cons j ids ih =>
      intro st i
      show ((finalize_executors (finalizeStep st j) ids) i).constructions
            = (st i).constructions ∧
          (((finalize_executors (finalizeStep st j) ids) i).cached = none ↔
            (st i).cached = none) ∧
          ((finalize_executors (finalizeStep st j) ids) i).discarded
            = (st i).discarded
      obtain ⟨h1, h2, h3⟩ := ih (finalizeStep st j) i
      rw [h1, h3]
      cases hcj : (st j).cached with
      | none =>
          rw [finalizeStep_none st j hcj] at h2 ⊢
          exact ⟨rfl, h2, rfl⟩
      | some e =>
          rw [finalizeStep_some st j e hcj] at h2 ⊢
          by_cases hij : i = j
          · subst hij
            refine ⟨by simp, ?_, by simp⟩
            rw [h2]
            simp [hcj]
          · refine ⟨by simp [hij], ?_, by simp [hij]⟩
            rw [h2]
            simp [hij]

/-! ### Exactly-once teardown on a fully planned completed run -/

theorem remTaskCount_cons_self (t : TaskSpec) (rem : List TaskSpec) :
    remTaskCount (t :: rem) t.executor_id =
      remTaskCount rem t.executor_id + 1 := by
  simp [remTaskCount, List.filter_cons]

theorem remTaskCount_cons_other (t : TaskSpec) (rem : List TaskSpec) (i : Nat)
    (h : ¬ t.executor_id = i) :
    remTaskCount (t :: rem) i = remTaskCount rem i := by
  simp [remTaskCount, List.filter_cons, h]

/-- Run invariant of the executor layer: every instance_id is either
untouched (nothing constructed, all its tasks still pending), or holds a
cached shared instance whose remaining count matches its pending tasks and
which has been torn down exactly when that count reached zero, or is done
with only once-torn-down discarded instances. -/
def CacheInv (tpi : Nat → Nat) (st : Nat → IdState)
    (rem : List TaskSpec) : Prop :=
  ∀ i,
    ((st i).cached = none ∧ (st i).discarded = [] ∧
      remTaskCount rem i = tpi i) ∨
    (∃ e, (st i).cached = some e ∧ e.shared = true ∧
      e.tasksLeft = (remTaskCount rem i : Int) ∧
      e.teardownCount = (if remTaskCount rem i = 0 then 1 else 0) ∧
      (st i).discarded = []) ∨
    ((st i).cached = none ∧ remTaskCount rem i = 0 ∧
      ∀ e ∈ (st i).discarded, e.teardownCount = 1)

theorem inv_step (tpi : Nat → Nat) (st : Nat → IdState) (t : TaskSpec)
    (rem : List TaskSpec) (hinv : CacheInv tpi st (t :: rem))
    (hu : t.unplanned = false)
    (hs1 : t.shared = false → tpi t.executor_id = 1) :
    CacheInv tpi (runTaskOnCache tpi st t) rem := by
  intro i
  by_cases hi : i = t.executor_id
  · subst hi
    have hcnt := remTaskCount_cons_self t rem
    rcases hinv t.executor_id with ⟨hA1, hA2, hA3⟩ |
      ⟨e, hB1, hB2, hB3, hB4, hB5⟩ | ⟨hC1, hC2, hC3⟩
    · rw [runTaskOnCache_at_miss tpi st t hA1]
      rw [hcnt] at hA3
      rw [if_neg (by simp [hu])]
      rw [execRun_eq]
      by_cases hsh : t.shared = true
      · rw [writeBack_shared _ _ _ hsh]
        refine Or.inr (Or.inl ⟨_, rfl, hsh, ?_, ?_, hA2⟩)
        · show (tpi t.executor_id : Int) - 1 =
            (remTaskCount rem t.executor_id : Int)
          omega
        · show (if (tpi t.executor_id : Int) - 1 = 0 then 0 + 1 else 0) =
            (if remTaskCount rem t.executor_id = 0 then 1 else 0)
          by_cases hr : remTaskCount rem t.executor_id = 0
          · rw [if_pos hr, if_pos (by omega)]
          · rw [if_neg hr, if_neg (by omega)]
      · have hshf : t.shared = false := by
          revert hsh
          cases t.shared <;> simp
        have htpi : tpi t.executor_id = 1 := hs1 hshf
        have hr0 : remTaskCount rem t.executor_id = 0 := by omega
        rw [writeBack_not_shared _ _ _ hshf]
        refine Or.inr (Or.inr ⟨hA1, hr0, ?_⟩)
        intro e he
        rw [hA2] at he
        simp only [List.nil_append, List.mem_singleton] at he
        rw [he]
        show (if (tpi t.executor_id : Int) - 1 = 0 then 0 + 1 else 0) = 1
        rw [if_pos (by omega)]
    · rw [runTaskOnCache_at_hit tpi st t e hB1]
      rw [hcnt] at hB3 hB4
      have hB4' : e.teardownCount = 0 := by
        rw [hB4, if_neg (Nat.succ_ne_zero _)]
      rw [if_neg (by simp [hu])]
      cases e with
      | mk x s n =>
          rw [execRun_eq]
          have hss : s = true := hB2
          rw [writeBack_shared (st t.executor_id)
            { tasksLeft := x - 1, shared := s,
              teardownCount := if x - 1 = 0 then n + 1 else n } false hss]
          refine Or.inr (Or.inl ⟨_, rfl, hss, ?_, ?_, hB5⟩)
          · show x - 1 = (remTaskCount rem t.executor_id : Int)
            have : x = (remTaskCount rem t.executor_id + 1 : Nat) := hB3
            omega
          · show (if x - 1 = 0 then n + 1 else n) =
              (if remTaskCount rem t.executor_id = 0 then 1 else 0)
            have hx : x = (remTaskCount rem t.executor_id + 1 : Nat) := hB3
            have hn : n = 0 := hB4'
            by_cases hr : remTaskCount rem t.executor_id = 0
            · rw [if_pos hr, if_pos (by omega), hn]
            · rw [if_neg hr, if_neg (by omega), hn]
    · rw [hcnt] at hC2
      exact absurd hC2 (Nat.succ_ne_zero _)
  · rw [runTaskOnCache_at_other tpi st t i hi]
    have hcnt := remTaskCount_cons_other t rem i (fun hh => hi hh.symm)
    rw [← hcnt]
    exact hinv i

theorem runWorkflowTasks_inv (tpi : Nat → Nat) (rem : List TaskSpec) :
    ∀ st : Nat → IdState, CacheInv tpi st rem →
      (∀ t ∈ rem, t.fails = false ∧ t.unplanned = false ∧
        (t.shared = false → tpi t.executor_id = 1)) →
      CacheInv tpi ((runWorkflowTasks tpi st rem).1) [] ∧
      (runWorkflowTasks tpi st rem).2 = false := by
  induction rem with
  | nil => intro st h _; exact ⟨h, rfl⟩
  | cons t rem ih =>
      intro st hinv hprops
      obtain ⟨hf, hu, hs1⟩ := hprops t (List.mem_cons_self t rem)
      have hstep := inv_step tpi st t rem hinv hu hs1
      simp only [runWorkflowTasks, hf, Bool.false_eq_true, if_false]
      exact ih _ hstep (fun u hu' => hprops u (List.mem_cons_of_mem t hu'))

theorem teardown_once_of_inv (tpi : Nat → Nat) (st : Nat → IdState)
    (h : CacheInv tpi st []) :
    ∀ i k, k ∈ teardownCounts st i → k = 1 := by
  intro i k hk
  rcases h i with ⟨h1, h2, _⟩ | ⟨e, h1, _, _, h4, h5⟩ | ⟨h1, _, h3⟩
  · rw [teardownCounts, h1, h2] at hk
    simp at hk
  · rw [teardownCounts, h1, h5] at hk
    have h4' : e.teardownCount = 1 := by
      rw [h4]
      rfl
    simp [h4'] at hk
    exact hk
  · rw [teardownCounts, h1] at hk
    simp only [Option.toList_none, List.nil_append, List.mem_map] at hk
    obtain ⟨e, he, hek⟩ := hk
    rw [← hek]
    exact h3 e he

/-! ## Claim C7 -/

/-- A two-task run in which a shared executor finishes all its planned work
and a later task fails the workflow. -/
def tasksEx : List TaskSpec :=
  [ { executor_id := 0, shared := true, unplanned := false, fails := false },
    { executor_id := 1, shared := false, unplanned := false, fails := true } ]

/-- C7: counterexample.  When the workflow fails after a shared executor
instance has already exhausted its planned task count (and torn itself down),
`finalize_executors` tears the still-cached instance down a second time: the
instance of id 0 ends with two teardown calls, refuting "teardown is called
exactly once per constructed instance when the workflow terminates". -/
theorem C7_counterexample :
    teardownCounts (executorLifecycle (fun _ => 1) [0, 1] tasksEx) 0 = [2] ∧
    ¬ (∀ i k,
        k ∈ teardownCounts (executorLifecycle (fun _ => 1) [0, 1] tasksEx) i →
          k = 1) := by
  constructor
  · decide
  · intro h
    exact absurd (h 0 2 (by decide)) (by decide)

/-- C7 (amended): over any run, at most one executor instance is constructed
per instance_id whose tasks all mark it shared; and when the workflow
completes — every task runs, none fails, no unplanned tasks, the planned
tally matches the tasks, and non-shared instance_ids carry exactly one task —
teardown is called exactly once per constructed instance (by task-count
exhaustion).  On a failed or cancelled run `finalize_executors` additionally
tears down every cached instance, which can repeat a teardown (see the
counterexample). -/
theorem C7_executor_cache_semantics (tpi : Nat → Nat) (ids : List Nat) :
    (∀ (ts : List TaskSpec) (i : Nat),
        (∀ t ∈ ts, t.executor_id = i → t.shared = true) →
        (executorLifecycle tpi ids ts i).constructions ≤ 1) ∧
    (∀ ts : List TaskSpec,
        (∀ t ∈ ts, t.fails = false ∧ t.unplanned = false ∧
            (t.shared = false → tpi t.executor_id = 1)) →
        (∀ i, remTaskCount ts i = tpi i) →
        ∀ i k, k ∈ teardownCounts (executorLifecycle tpi ids ts) i →
          k = 1) := by
  constructor
  · intro ts i hsh
    have h0 : CacheUniq (fun _ => initIdState) i :=
      ⟨fun _ => rfl, fun e he => by simp [initIdState] at he⟩
    have h1 := runWorkflowTasks_uniq tpi ts (fun _ => initIdState) i hsh h0
    unfold executorLifecycle
    by_cases hr : (runWorkflowTasks tpi (fun _ => initIdState) ts).2 = true
    · rw [if_pos hr]
      obtain ⟨hp1, _, _⟩ := finalize_preserves ids
        (runWorkflowTasks tpi (fun _ => initIdState) ts).1 i
      rw [hp1]
      cases hcc : ((runWorkflowTasks tpi (fun _ => initIdState) ts).1 i).cached
        with
      | none => rw [h1.1 hcc]; omega
      | some e => rw [h1.2 e hcc]
    · rw [if_neg hr]
      cases hcc : ((runWorkflowTasks tpi (fun _ => initIdState) ts).1 i).cached
        with
      | none => rw [h1.1 hcc]; omega
      | some e => rw [h1.2 e hcc]
  · intro ts hprops hcount
    have hinv0 : CacheInv tpi (fun _ => initIdState) ts := by
      intro i
      exact Or.inl ⟨rfl, rfl, hcount i⟩
    obtain ⟨hfin, hfail⟩ :=
      runWorkflowTasks_inv tpi ts (fun _ => initIdState) hinv0 hprops
    intro i k hk
    unfold executorLifecycle at hk
    rw [hfail] at hk
    simp only [Bool.false_eq_true, if_false] at hk
    exact teardown_once_of_inv tpi _ hfin i k hk

/-- C7 witness: the amended theorem applied to a concrete one-task shared
executor run that completes. -/
theorem C7_witness :
    (executorLifecycle (fun i => if i = 0 then 1 else 0) [0]
        [{ executor_id := 0, shared := true, unplanned := false,
           fails := false }] 0).constructions ≤ 1 ∧
    (∀ k, k ∈ teardownCounts
        (executorLifecycle (fun i => if i = 0 then 1 else 0) [0]
          [{ executor_id := 0, shared := true, unplanned := false,
             fails := false }]) 0 → k = 1) := by
  have h := C7_executor_cache_semantics (fun i => if i = 0 then 1 else 0) [0]
  refine ⟨h.1 _ 0 (by decide), fun k hk => h.2 _ (by decide) ?_ 0 k hk⟩
  intro i
  by_cases h0 : i = 0
  · subst h0
    simp [remTaskCount, List.filter_cons]
  · simp [remTaskCount, List.filter_cons, h0,
      show ¬ (0 : Nat) = i from fun hh => h0 hh.symm]

end Covalent
